import Mathlib

namespace Tspo

/-
  Verification development for the tspo structural object-traversal engine.

  The engine classifies runtime values (isPlainObject in the helpers module,
  re-exported to all three algorithms), deep-clones plain-object graphs
  (src/utils/copy.ts), deep-compares them (src/utils/compare.ts), and walks
  them pre-order (src/utils/iterate.ts).

  The embedding models the JavaScript value universe as a mutually inductive
  family: Val for values, Fields for the own enumerable string-keyed entries
  of an object in enumeration order, Elems for array elements or set members
  in order, and MapEntries for map entries in insertion order. Heap values
  carry a numeric identity (their reference); clone threads an allocation
  counter and gives every container it builds a fresh identity taken from
  that counter, which models allocation of a new object.
-/

/-- Numeric primitive values, keeping exactly the distinctions that the
SameValue algorithm used by Object.is observes: NaN is one value equal to
itself, and positive and negative zero are distinct values. Other numbers
are modelled as integers. -/
inductive JsNum where
  | nan
  | posZero
  | negZero
  | intVal (i : Int)
deriving DecidableEq, Repr

/-- Primitive values: numbers, strings, booleans, null and undefined.
Equality of this type is the SameValue relation that Object.is computes on
primitives. -/
inductive Prim where
  | num (n : JsNum)
  | str (s : String)
  | boolV (b : Bool)
  | nullV
  | undefV
deriving DecidableEq, Repr

/-- The prototype of a generic object, as far as the classifier looks:
Object.getPrototypeOf(arg) is null, is Object.prototype, is a custom object
whose own prototype is null (one link of custom lineage), or is anything
deeper (class instances and the like). -/
inductive Proto where
  | nullProto
  | objectProto
  | customNullParent
  | customDeep
deriving DecidableEq, Repr

/-- The constructor of an ArrayBuffer view. Typed-array kinds expose a
slice method; DataView does not. -/
inductive ViewKind where
  | uint8
  | int32
  | float64
  | dataview
deriving DecidableEq, Repr

mutual
/-- A runtime value. Heap values carry their reference identity as a Nat.
Generic objects record their prototype shape, whether they expose the
Symbol.toStringTag capability, whether they expose the Symbol.iterator
capability, and their own enumerable string-keyed entries. A view carries
its own identity, its kind, the identity of its underlying ArrayBuffer, its
byteOffset, its byteLength, and the full byte contents of the underlying
buffer. -/
inductive Val where
  | prim (p : Prim)
  | func (id : Nat)
  | obj (id : Nat) (proto : Proto) (tag iter : Bool) (fields : Fields)
  | arr (id : Nat) (elems : Elems)
  | date (id : Nat) (time : Int)
  | regex (id : Nat) (source flags : String) (lastIndex : Nat)
  | mapV (id : Nat) (entries : MapEntries)
  | setV (id : Nat) (members : Elems)
  | buffer (id : Nat) (bytes : List Nat)
  | view (id : Nat) (kind : ViewKind) (bufId : Nat)
      (byteOffset byteLength : Nat) (bufBytes : List Nat)
deriving Repr

/-- Own enumerable string-keyed entries of an object, in the order the
for-in loop enumerates them. -/
inductive Fields where
  | nil
  | cons (key : String) (value : Val) (rest : Fields)
deriving Repr

/-- Array elements (or set members), in index (insertion) order. -/
inductive Elems where
  | nil
  | cons (value : Val) (rest : Elems)
deriving Repr

/-- Map entries in insertion order. -/
inductive MapEntries where
  | nil
  | cons (key value : Val) (rest : MapEntries)
deriving Repr
end

/-- Number of entries, the size the comparison loop counts. -/
def fieldsLength : Fields → Nat
  | .nil => 0
  | .cons _ _ rest => 1 + fieldsLength rest

/-- Property read b[key] together with the hasOwnProperty test: the value of
the first entry with the given key, if any. -/
def fieldsLookup : Fields → String → Option Val
  | .nil, _ => none
  | .cons k v rest, q => if k == q then some v else fieldsLookup rest q

/-- Keys of the entries, in enumeration order. -/
def fieldsKeys : Fields → List String
  | .nil => []
  | .cons k _ rest => k :: fieldsKeys rest

/-- Whether an entry with the given key exists. -/
def fieldsHasKey : Fields → String → Bool
  | .nil, _ => false
  | .cons k _ rest, q => k == q || fieldsHasKey rest q

/-- Whether all keys are distinct. Every JavaScript object satisfies this;
the embedding states it explicitly where a proof needs it. -/
def fieldsNodup : Fields → Bool
  | .nil => true
  | .cons k _ rest => !fieldsHasKey rest k && fieldsNodup rest

/-- Number of elements (array length). -/
def elemsLength : Elems → Nat
  | .nil => 0
  | .cons _ rest => 1 + elemsLength rest

/-- Indexed read xs[i]. -/
def elemsGet : Elems → Nat → Option Val
  | .nil, _ => none
  | .cons v _, 0 => some v
  | .cons _ rest, i + 1 => elemsGet rest i

/-- Drop the first i elements. -/
def elemsDrop : Elems → Nat → Elems
  | xs, 0 => xs
  | .nil, _ => .nil
  | .cons _ rest, i + 1 => elemsDrop rest i

/-- The byte window an ArrayBuffer slice extracts: bytes from position off
(inclusive) for len bytes. -/
def listWindow (data : List Nat) (off len : Nat) : List Nat :=
  (data.drop off).take len

/-
  Value classifier, translated from the helpers isPlainObject module (the
  variant with the lineage disjunction and the two capability exclusions)
  that src/utils/compare.ts, src/utils/copy.ts and src/utils/iterate.ts all
  import. The source reads:

    if (typeof arg !== 'object' || arg === null) return false;
    const argProto = Object.getPrototypeOf(arg);
    return (
      (argProto === null ||
        argProto === objectProto ||
        Object.getPrototypeOf(argProto) === null) &&
      !(Symbol.toStringTag in arg) &&
      !(Symbol.iterator in arg)
    );
-/

/-- The lineage disjunction of the classifier: the prototype is null, is
Object.prototype, or is a custom prototype whose own prototype is null. -/
def protoAdmissible : Proto → Bool
  | .nullProto => true
  | .objectProto => true
  | .customNullParent => true
  | .customDeep => false

/-- The classifier isPlainObject, evaluated on each constructor of Val.
Primitives and functions fail the typeof test. A generic object passes iff
its lineage is admissible and it exposes neither capability. Arrays, dates,
regexes, maps, sets, buffers and views all have prototype chains that are
two or more links deep (for example Array.prototype to Object.prototype to
null), so the lineage disjunction is false for them; arrays, maps and sets
additionally expose Symbol.iterator, and maps and sets Symbol.toStringTag. -/
def isPlainObject : Val → Bool
  | .prim _ => false
  | .func _ => false
  | .obj _ p tag iter _ => protoAdmissible p && !tag && !iter
  | .arr _ _ => false
  | .date _ _ => false
  | .regex _ _ _ _ => false
  | .mapV _ _ => false
  | .setV _ _ => false
  | .buffer _ _ => false
  | .view _ _ _ _ _ _ => false

/-- Whether the value is a Date (the instanceof Date test). -/
def isDateVal : Val → Bool
  | .date _ _ => true
  | _ => false

/-- Whether the value is an array (the Array.isArray test). -/
def isArrayVal : Val → Bool
  | .arr _ _ => true
  | _ => false

/-- The test typeof x is the string object and x is not null: true for every
heap value except functions, false for primitives and functions. -/
def isObjectTyped : Val → Bool
  | .prim _ => false
  | .func _ => false
  | _ => true

/-- Reference identity of a heap value; primitives have none. -/
def refId : Val → Option Nat
  | .prim _ => none
  | .func i => some i
  | .obj i _ _ _ _ => some i
  | .arr i _ => some i
  | .date i _ => some i
  | .regex i _ _ _ => some i
  | .mapV i _ => some i
  | .setV i _ => some i
  | .buffer i _ => some i
  | .view i _ _ _ _ _ => some i

/-- Object.is: SameValue on primitives, reference identity on heap values
(two live heap values are the same object exactly when they carry the same
identity; clone keeps identities unique by drawing fresh ones from its
counter). -/
def objectIs (a b : Val) : Bool :=
  match a, b with
  | .prim p, .prim q => p == q
  | a, b =>
    match refId a, refId b with
    | some i, some j => i == j
    | _, _ => false

/-- The fields of a generic object; nil on every other constructor. -/
def fieldsOf : Val → Fields
  | .obj _ _ _ _ fs => fs
  | _ => .nil

/-- The prototype of a generic object; customDeep on every other
constructor (copy only reads it after the classifier accepted the value,
so only the obj case is ever used). -/
def protoOf : Val → Proto
  | .obj _ p _ _ _ => p
  | _ => .customDeep

/-
  Deep compare engine, translated from src/utils/compare.ts. The source is

    function compareValue(a, b) {
      if (Object.is(a, b)) return true;
      if (a instanceof Date || b instanceof Date)
        return a instanceof Date && b instanceof Date && a.getTime() === b.getTime();
      const aIsArray = Array.isArray(a), bIsArray = Array.isArray(b);
      if (aIsArray || bIsArray) return aIsArray && bIsArray && compareArrays(a, b);
      const aIsPlainObject = isPlainObject(a), bIsPlainObject = isPlainObject(b);
      if (aIsPlainObject || bIsPlainObject)
        return aIsPlainObject && bIsPlainObject && comparePlainObjects(a, b);
      if (typeof a === 'object' && a !== null && typeof b === 'object' && b !== null)
        return a === b;
      return false;
    }

  comparePlainObjects walks the keys of a, requiring each to be an own key
  of b with a recursively equal value while counting the keys of a, then
  counts the own keys of b and requires the two counts to agree; its key
  loop is compareOwnKeys below and the count comparison is appended to it.
  compareArrays requires equal lengths and then compares index by index;
  its index loop is compareElems below, with the length test inlined before
  it exactly as the source returns false on a length mismatch before the
  loop.
-/

mutual
/-- Comparison of two values at the same position, following the branch
order of the source compareValue. -/
def compareValue (a b : Val) : Bool :=
  if objectIs a b then true
  else if isDateVal a || isDateVal b then
    match a, b with
    | .date _ ta, .date _ tb => ta == tb
    | _, _ => false
  else if isArrayVal a || isArrayVal b then
    match a, b with
    | .arr _ xs, .arr _ ys => (elemsLength xs == elemsLength ys) && compareElems xs ys
    | _, _ => false
  else if isPlainObject a || isPlainObject b then
    match a, b with
    | .obj _ pa ta ia fa, .obj _ pb tb ib fb =>
      (protoAdmissible pa && !ta && !ia) && (protoAdmissible pb && !tb && !ib) &&
        (compareOwnKeys fa fb && (fieldsLength fa == fieldsLength fb))
    | _, _ => false
  else if isObjectTyped a && isObjectTyped b then objectIs a b
  else false

/-- The key loop of comparePlainObjects: every entry of a must be an own
key of b whose value compares recursively equal. -/
def compareOwnKeys (a b : Fields) : Bool :=
  match a with
  | .nil => true
  | .cons k v rest =>
    match fieldsLookup b k with
    | none => false
    | some w => compareValue v w && compareOwnKeys rest b

/-- The index loop of compareArrays. -/
def compareElems (a b : Elems) : Bool :=
  match a, b with
  | .nil, _ => true
  | .cons _ _, .nil => false
  | .cons x xs, .cons y ys => compareValue x y && compareElems xs ys
end

/-- Comparison of two plain objects: the key loop of the source followed by
its key-count comparison. -/
def comparePlainObjects (a b : Fields) : Bool :=
  compareOwnKeys a b && (fieldsLength a == fieldsLength b)

/-- The error taxonomy of the engine: the single InvalidRootKind condition,
raised by copy and compare on a root the classifier rejects. -/
inductive PojoErr where
  | invalidRootKind
deriving DecidableEq, Repr

/-- The public compare entry point: both roots must classify as plain
objects, otherwise the call throws; then the plain-object comparison runs. -/
def compare (a b : Val) : Except PojoErr Bool :=
  if !isPlainObject a || !isPlainObject b then .error .invalidRootKind
  else .ok (comparePlainObjects (fieldsOf a) (fieldsOf b))

/-
  Deep clone engine, translated from src/utils/copy.ts. clonePlainObject
  allocates a fresh object whose prototype is Object.create(null) when the
  source prototype is null and the object literal (whose prototype is
  Object.prototype) otherwise, then clones every own enumerable entry; its
  entry loop is cloneFields below. cloneValue dispatches in source order:
  isPlainObject, Array.isArray, instanceof Date, then (for the remaining
  typeof-object values) cloneNonPlainDeep when deepCloneAll is set and
  cloneNonPlainShallow otherwise, and finally returns primitives and
  functions unchanged. On the Val constructors the dispatch is determined
  by the classifier: only obj can be plain; regex, map, set, buffer and
  view always land in the non-plain branches, whose per-kind cases are
  translated on the corresponding constructors. The allocation counter n
  names every container the clone builds: a branch that builds one object
  gives it identity n and returns counter n + 1; the view branch builds the
  view (identity n) and the sliced buffer (identity n + 1) and returns
  n + 2. Both cloneArrayBufferView paths of the source, the typed-array
  slice() call and the DataView over buffer.slice(byteOffset, byteOffset +
  byteLength), build a view of the same kind and byteLength over a fresh
  buffer holding exactly the viewed byte window, with byteOffset zero.
-/

mutual
/-- Clone of one nested value, following the dispatch of the source
cloneValue. -/
def cloneValue (v : Val) (resetDates deepCloneAll : Bool) (now : Int) (n : Nat) :
    Val × Nat :=
  match v with
  | .prim p => (.prim p, n)
  | .func i => (.func i, n)
  | .obj _ p tag iter fs =>
    if protoAdmissible p && !tag && !iter then
      -- isPlainObject(value): clonePlainObject(value, Object.getPrototypeOf(value))
      let r := cloneFields fs resetDates deepCloneAll now (n + 1)
      (.obj n (if p == .nullProto then .nullProto else .objectProto) false false r.1,
        r.2)
    else if deepCloneAll then
      -- cloneNonPlainDeep, generic branch: Object.create(proto), entries cloned
      let r := cloneFields fs resetDates true now (n + 1)
      (.obj n p tag iter r.1, r.2)
    else
      -- cloneNonPlainShallow, generic branch: Object.create(proto), entries as-is
      (.obj n p tag iter fs, n + 1)
  | .arr _ xs =>
    let r := cloneElems xs resetDates deepCloneAll now (n + 1)
    (.arr n r.1, r.2)
  | .date _ t =>
    if resetDates then (.date n now, n + 1) else (.date n t, n + 1)
  | .regex _ s f li =>
    -- new RegExp(value.source, value.flags) with lastIndex restored
    (.regex n s f li, n + 1)
  | .mapV _ es =>
    if deepCloneAll then
      let r := cloneMapEntries es resetDates now (n + 1)
      (.mapV n r.1, r.2)
    else
      -- new Map(value): one level of container duplication, entries as-is
      (.mapV n es, n + 1)
  | .setV _ ms =>
    if deepCloneAll then
      let r := cloneElems ms resetDates true now (n + 1)
      (.setV n r.1, r.2)
    else
      -- new Set(value): one level of container duplication, members as-is
      (.setV n ms, n + 1)
  | .buffer _ bs =>
    -- value.slice(0): a fresh buffer with the same bytes
    (.buffer n bs, n + 1)
  | .view _ k _ off len data =>
    -- cloneArrayBufferView: fresh view over a fresh buffer holding the window
    (.view n k (n + 1) 0 len (listWindow data off len), n + 2)

/-- The entry loop shared by clonePlainObject and the generic deep branch of
cloneNonPlainDeep. -/
def cloneFields (fs : Fields) (resetDates deepCloneAll : Bool) (now : Int) (n : Nat) :
    Fields × Nat :=
  match fs with
  | .nil => (.nil, n)
  | .cons k v rest =>
    let rv := cloneValue v resetDates deepCloneAll now n
    let rr := cloneFields rest resetDates deepCloneAll now rv.2
    (.cons k rv.1 rr.1, rr.2)

/-- The element loop of cloneArray (and of the deep Set branch, whose
recursive calls pass deepCloneAll as true). -/
def cloneElems (xs : Elems) (resetDates deepCloneAll : Bool) (now : Int) (n : Nat) :
    Elems × Nat :=
  match xs with
  | .nil => (.nil, n)
  | .cons v rest =>
    let rv := cloneValue v resetDates deepCloneAll now n
    let rr := cloneElems rest resetDates deepCloneAll now rv.2
    (.cons rv.1 rr.1, rr.2)

/-- The entry loop of the deep Map branch: keys and values are both cloned
with deepCloneAll true. -/
def cloneMapEntries (es : MapEntries) (resetDates : Bool) (now : Int) (n : Nat) :
    MapEntries × Nat :=
  match es with
  | .nil => (.nil, n)
  | .cons k v rest =>
    let rk := cloneValue k resetDates true now n
    let rv := cloneValue v resetDates true now rk.2
    let rr := cloneMapEntries rest resetDates now rv.2
    (.cons rk.1 rv.1 rr.1, rr.2)
end

/-- Clone of a plain object root or nested plain object: a fresh container
(identity n) whose prototype is null exactly when the source prototype was
null and Object.prototype otherwise, with every entry cloned. -/
def clonePlainObject (p : Proto) (fs : Fields) (resetDates deepCloneAll : Bool)
    (now : Int) (n : Nat) : Val × Nat :=
  let r := cloneFields fs resetDates deepCloneAll now (n + 1)
  (.obj n (if p == .nullProto then .nullProto else .objectProto) false false r.1, r.2)

/-- The options record of copy. -/
structure CopyOptions where
  resetDates : Bool
  deepCloneAll : Bool
deriving DecidableEq, Repr

/-- The public copy entry point: the root must classify as a plain object,
otherwise the call throws before any traversal; then the plain-object clone
runs with the two option flags. The clock reading now stands for Date.now()
at clone time, and n is the allocation counter the call starts from. -/
def copy (v : Val) (o : CopyOptions) (now : Int) (n : Nat) : Except PojoErr Val :=
  if isPlainObject v then
    .ok (clonePlainObject (protoOf v) (fieldsOf v) o.resetDates o.deepCloneAll now n).1
  else
    .error .invalidRootKind

/-
  Tree walker, translated from src/utils/iterate.ts. The callback is
  modelled by the trace of its invocations: iterate returns, in call order,
  the records the source passes to the callback. The source pushes the
  current key onto a shared path array before recursing and pops it after,
  handing the callback a copy of the current path; functionally that is the
  path parameter below, extended with the current key for the recursive
  call. The walk fires the callback for every entry and then descends only
  if the entry value classifies as a plain object or an array.
-/

/-- A key as the walker reports it: an object key (a string) or an array
index (a number). -/
inductive JsKey where
  | str (s : String)
  | idx (i : Nat)
deriving DecidableEq, Repr

/-- One callback invocation of the walker: the containing parent, the key,
the value, and the path of keys from the root down to the parent. -/
structure VisitEvent where
  parent : Val
  key : JsKey
  value : Val
  path : List JsKey
deriving Repr

mutual
/-- The recursive walker on one container, already known to be a plain
object or an array. -/
def iterateHelper (node : Val) (path : List JsKey) : List VisitEvent :=
  match node with
  | .arr _ xs => iterElems node xs 0 path
  | .obj _ _ _ _ fs => iterFields node fs path
  | _ => []

/-- The for-in loop of the walker on a plain object. -/
def iterFields (parent : Val) (fs : Fields) (path : List JsKey) : List VisitEvent :=
  match fs with
  | .nil => []
  | .cons k v rest =>
    ⟨parent, .str k, v, path⟩ ::
      ((if isPlainObject v || isArrayVal v then iterateHelper v (path ++ [JsKey.str k])
        else []) ++
        iterFields parent rest path)

/-- The index loop of the walker on an array, carrying the current index. -/
def iterElems (parent : Val) (xs : Elems) (i : Nat) (path : List JsKey) :
    List VisitEvent :=
  match xs with
  | .nil => []
  | .cons v rest =>
    ⟨parent, .idx i, v, path⟩ ::
      ((if isPlainObject v || isArrayVal v then iterateHelper v (path ++ [JsKey.idx i])
        else []) ++
        iterElems parent rest (i + 1) path)
end

/-- The public iterate entry point: a root the classifier rejects is a
silent no-op (no callback call, no error); a plain-object root is walked
with the empty path. -/
def iterate (root : Val) : List VisitEvent :=
  if isPlainObject root then iterateHelper root [] else []

/-
  Auxiliary notions for the theorems: the set of reference identities
  occurring in a value, a byte-write through a buffer identity (the model
  of mutating one byte of a view or buffer), the well-formedness classes
  used as hypotheses, and path lookup for the walker contract.
-/

mutual
/-- Every reference identity occurring in a value, container identities and
underlying ArrayBuffer identities of views included. -/
def idsV : Val → List Nat
  | .prim _ => []
  | .func i => [i]
  | .obj i _ _ _ fs => i :: idsF fs
  | .arr i xs => i :: idsE xs
  | .date i _ => [i]
  | .regex i _ _ _ => [i]
  | .mapV i es => i :: idsM es
  | .setV i ms => i :: idsE ms
  | .buffer i _ => [i]
  | .view i _ b _ _ _ => [i, b]

/-- Identities occurring in object entries. -/
def idsF : Fields → List Nat
  | .nil => []
  | .cons _ v rest => idsV v ++ idsF rest

/-- Identities occurring in array elements or set members. -/
def idsE : Elems → List Nat
  | .nil => []
  | .cons v rest => idsV v ++ idsE rest

/-- Identities occurring in map entries. -/
def idsM : MapEntries → List Nat
  | .nil => []
  | .cons k v rest => idsV k ++ idsV v ++ idsM rest
end

mutual
/-- Write the byte at absolute position j of the ArrayBuffer with identity
bid to b, wherever that buffer occurs in the value: a write through a view
of the clone must not reach any byte region of the source, and this map
makes that statement precise. -/
def setByteV (bid j b : Nat) : Val → Val
  | .prim p => .prim p
  | .func i => .func i
  | .obj i p tg it fs => .obj i p tg it (setByteF bid j b fs)
  | .arr i xs => .arr i (setByteE bid j b xs)
  | .date i t => .date i t
  | .regex i s f li => .regex i s f li
  | .mapV i es => .mapV i (setByteM bid j b es)
  | .setV i ms => .setV i (setByteE bid j b ms)
  | .buffer i bs => if i == bid then .buffer i (bs.set j b) else .buffer i bs
  | .view i k bf off len data =>
    if bf == bid then .view i k bf off len (data.set j b)
    else .view i k bf off len data

/-- Byte write inside object entries. -/
def setByteF (bid j b : Nat) : Fields → Fields
  | .nil => .nil
  | .cons k v rest => .cons k (setByteV bid j b v) (setByteF bid j b rest)

/-- Byte write inside array elements or set members. -/
def setByteE (bid j b : Nat) : Elems → Elems
  | .nil => .nil
  | .cons v rest => .cons (setByteV bid j b v) (setByteE bid j b rest)

/-- Byte write inside map entries. -/
def setByteM (bid j b : Nat) : MapEntries → MapEntries
  | .nil => .nil
  | .cons k v rest => .cons (setByteV bid j b k) (setByteV bid j b v) (setByteM bid j b rest)
end

mutual
/-- A value built only from primitives, functions, dates, duplicate-free
plain objects and arrays: the fragment on which clone output and source
compare equal. Collections, regexes, buffers, views and non-plain objects
are excluded because clone rebuilds them as fresh references while the
comparison tests them by reference. -/
def tame : Val → Bool
  | .prim _ => true
  | .func _ => true
  | .date _ _ => true
  | .obj _ p tag iter fs =>
    (protoAdmissible p && !tag && !iter) && fieldsNodup fs && tameF fs
  | .arr _ xs => tameE xs
  | .regex _ _ _ _ => false
  | .mapV _ _ => false
  | .setV _ _ => false
  | .buffer _ _ => false
  | .view _ _ _ _ _ _ => false

/-- Tameness of object entries. -/
def tameF : Fields → Bool
  | .nil => true
  | .cons _ v rest => tame v && tameF rest

/-- Tameness of array elements. -/
def tameE : Elems → Bool
  | .nil => true
  | .cons v rest => tame v && tameE rest
end

mutual
/-- Every plain object reachable through plain objects and arrays has
duplicate-free keys. Every JavaScript object graph satisfies this, since an
object cannot carry one key twice. -/
def nodupDeep : Val → Bool
  | .obj _ _ _ _ fs => fieldsNodup fs && nodupDeepF fs
  | .arr _ xs => nodupDeepE xs
  | _ => true

/-- Deep key distinctness inside object entries. -/
def nodupDeepF : Fields → Bool
  | .nil => true
  | .cons _ v rest => nodupDeep v && nodupDeepF rest

/-- Deep key distinctness inside array elements. -/
def nodupDeepE : Elems → Bool
  | .nil => true
  | .cons v rest => nodupDeep v && nodupDeepE rest
end

/-- The child of a container at one key: an object entry for a string key,
an array element for an index key. -/
def childAt (v : Val) (k : JsKey) : Option Val :=
  match v, k with
  | .obj _ _ _ _ fs, .str s => fieldsLookup fs s
  | .arr _ xs, .idx i => elemsGet xs i
  | _, _ => none

/-- Follow a key path down from a value. -/
def getAtPath : Val → List JsKey → Option Val
  | v, [] => some v
  | v, k :: p =>
    match childAt v k with
    | some c => getAtPath c p
    | none => none

/-- The entries of an object as a list of key-value pairs, in enumeration
order. -/
def fieldsEntries : Fields → List (String × Val)
  | .nil => []
  | .cons k v r => (k, v) :: fieldsEntries r

/-- Induction principle for Fields alone. -/
def fieldsRecOn {motive : Fields → Prop} (h0 : motive .nil)
    (h1 : ∀ k v r, motive r → motive (.cons k v r)) : ∀ fs, motive fs
  | .nil => h0
  | .cons k v r => h1 k v r (fieldsRecOn h0 h1 r)

/-- Induction principle for Elems alone. -/
def elemsRecOn {motive : Elems → Prop} (h0 : motive .nil)
    (h1 : ∀ v r, motive r → motive (.cons v r)) : ∀ xs, motive xs
  | .nil => h0
  | .cons v r => h1 v r (elemsRecOn h0 h1 r)

/-
  Concrete values used by the worked examples and counterexamples. exRoot
  is the record of the walker ordering contract in the specification;
  cxBufRecord holds a typed-array view with a nonzero byteOffset;
  cxMapRecord holds a nested empty record and a nested empty map.
-/

/-- The nested record of the walker example. -/
def exUser : Val :=
  .obj 1 .objectProto false false
    (.cons "id" (.prim (.num (.intVal 1)))
      (.cons "name" (.prim (.str "Ada")) .nil))

/-- The nested list of the walker example. -/
def exFlags : Val :=
  .arr 2 (.cons (.prim (.str "staff")) .nil)

/-- The record of the walker example. -/
def exRoot : Val :=
  .obj 0 .objectProto false false
    (.cons "user" exUser (.cons "flags" exFlags .nil))

/-- A Uint8Array view with byteOffset 2 and byteLength 2 over a five-byte
buffer (identity 5) whose viewed window holds the bytes 5 and 6. -/
def cxViewSource : Val := .view 1 .uint8 5 2 2 [9, 9, 5, 6, 9]

/-- A record holding cxViewSource under the key v. -/
def cxBufRecord : Val :=
  .obj 0 .objectProto false false (.cons "v" cxViewSource .nil)

/-- A record holding a nested empty record under n and a nested empty map
under m. -/
def cxMapRecord : Val :=
  .obj 0 .objectProto false false
    (.cons "n" (.obj 1 .objectProto false false .nil)
      (.cons "m" (.mapV 2 .nil) .nil))

/-
  Motives of the mutual inductions. Each block of four propositions is one
  simultaneous induction over the value family.
-/

/-- Trivial motive for MapEntries in inductions that never reach them. -/
def TrivM (_ : MapEntries) : Prop := True

/-- Clone output compares equal to its source (values). -/
def CloneCmpV (v : Val) : Prop :=
  ∀ dc now n, tame v = true → compareValue (cloneValue v false dc now n).1 v = true

/-- Clone output compares equal to its source (object entries): keys and
count are preserved, and under distinct keys every cloned entry compares
equal to the source entry it came from. -/
def CloneCmpF (fs : Fields) : Prop :=
  ∀ dc now n,
    fieldsKeys (cloneFields fs false dc now n).1 = fieldsKeys fs ∧
    fieldsLength (cloneFields fs false dc now n).1 = fieldsLength fs ∧
    (fieldsNodup fs = true → tameF fs = true →
      compareOwnKeys (cloneFields fs false dc now n).1 fs = true)

/-- Clone output compares equal to its source (array elements). -/
def CloneCmpE (xs : Elems) : Prop :=
  ∀ dc now n,
    elemsLength (cloneElems xs false dc now n).1 = elemsLength xs ∧
    (tameE xs = true → compareElems (cloneElems xs false dc now n).1 xs = true)

/-- The allocation counter never decreases (values). -/
def CloneMonoV (v : Val) : Prop := ∀ rd dc now n, n ≤ (cloneValue v rd dc now n).2

/-- The allocation counter never decreases (object entries). -/
def CloneMonoF (fs : Fields) : Prop := ∀ rd dc now n, n ≤ (cloneFields fs rd dc now n).2

/-- The allocation counter never decreases (array elements). -/
def CloneMonoE (xs : Elems) : Prop := ∀ rd dc now n, n ≤ (cloneElems xs rd dc now n).2

/-- The allocation counter never decreases (map entries). -/
def CloneMonoM (es : MapEntries) : Prop := ∀ rd now n, n ≤ (cloneMapEntries es rd now n).2

/-- A byte write through a buffer identity foreign to the value leaves the
value unchanged (values). -/
def NoAliasV (v : Val) : Prop := ∀ bid j b, bid ∉ idsV v → setByteV bid j b v = v

/-- Foreign byte writes are invisible (object entries). -/
def NoAliasF (fs : Fields) : Prop := ∀ bid j b, bid ∉ idsF fs → setByteF bid j b fs = fs

/-- Foreign byte writes are invisible (array elements). -/
def NoAliasE (xs : Elems) : Prop := ∀ bid j b, bid ∉ idsE xs → setByteE bid j b xs = xs

/-- Foreign byte writes are invisible (map entries). -/
def NoAliasM (es : MapEntries) : Prop := ∀ bid j b, bid ∉ idsM es → setByteM bid j b es = es

/-- Walker path contract (values): when the walk starts at a container that
the path reaches from the root, every event names its parent container at
its key and carries the key path from the root to that parent. -/
def IterPathV (v : Val) : Prop :=
  ∀ path0 root, getAtPath root path0 = some v → nodupDeep v = true →
    ∀ e ∈ iterateHelper v path0,
      childAt e.parent e.key = some e.value ∧ getAtPath root e.path = some e.parent

/-- Walker path contract (object entries). -/
def IterPathF (fs : Fields) : Prop :=
  ∀ parent path0 root, getAtPath root path0 = some parent →
    (∀ kv ∈ fieldsEntries fs, childAt parent (.str kv.1) = some kv.2) →
    (∀ kv ∈ fieldsEntries fs, nodupDeep kv.2 = true) →
    ∀ e ∈ iterFields parent fs path0,
      childAt e.parent e.key = some e.value ∧ getAtPath root e.path = some e.parent

/-- Walker path contract (array elements, with the current index). -/
def IterPathE (xs : Elems) : Prop :=
  ∀ parent i path0 root, getAtPath root path0 = some parent →
    (∀ j v, elemsGet xs j = some v → childAt parent (.idx (i + j)) = some v) →
    (∀ j v, elemsGet xs j = some v → nodupDeep v = true) →
    ∀ e ∈ iterElems parent xs i path0,
      childAt e.parent e.key = some e.value ∧ getAtPath root e.path = some e.parent

/-
  Theorems. The lemmas ahead of each claim theorem develop the facts the
  claim needs; the claim theorems themselves are named c1 to c10 with their
  witnesses and counterexamples alongside.
-/

/-- Membership of an entry forces its key to be found. -/
theorem fieldsHasKey_of_mem :
    ∀ (r : Fields) (k : String) (v : Val),
      (k, v) ∈ fieldsEntries r → fieldsHasKey r k = true := by
  intro r
  induction r using fieldsRecOn with
  | h0 => intro k v hm; simp [fieldsEntries] at hm
  | h1 k1 v1 rest ih =>
    intro k v hm
    simp only [fieldsEntries, List.mem_cons, Prod.mk.injEq] at hm
    rcases hm with ⟨hk, _⟩ | hm
    · simp [fieldsHasKey, hk]
    · simp [fieldsHasKey, ih k v hm]

/-- A successful lookup is an entry. -/
theorem fieldsLookup_mem :
    ∀ (a : Fields) (k : String) (v : Val),
      fieldsLookup a k = some v → (k, v) ∈ fieldsEntries a := by
  intro a
  induction a using fieldsRecOn with
  | h0 => intro k v h; simp [fieldsLookup] at h
  | h1 k1 v1 rest ih =>
    intro k v h
    simp only [fieldsLookup] at h
    by_cases hk : (k1 == k) = true
    · rw [if_pos hk] at h
      obtain rfl : v1 = v := by simpa using h
      obtain rfl : k1 = k := by simpa using hk
      simp [fieldsEntries]
    · rw [if_neg hk] at h
      simp [fieldsEntries, ih k v h]

/-- Under distinct keys every entry is what its key looks up to. -/
theorem fieldsEntries_lookup :
    ∀ (a : Fields), fieldsNodup a = true →
      ∀ kv ∈ fieldsEntries a, fieldsLookup a kv.1 = some kv.2 := by
  intro a
  induction a using fieldsRecOn with
  | h0 => intro _ kv hm; simp [fieldsEntries] at hm
  | h1 k1 v1 rest ih =>
    intro hnd kv hm
    simp only [fieldsNodup, Bool.and_eq_true, Bool.not_eq_eq_eq_not, Bool.not_true] at hnd
    simp only [fieldsEntries, List.mem_cons] at hm
    rcases hm with rfl | hm
    · simp [fieldsLookup]
    · have hk : fieldsHasKey rest kv.1 = true := by
        have := fieldsHasKey_of_mem rest kv.1 kv.2
        exact this (by simpa using hm)
      have hne : (k1 == kv.1) = false := by
        rcases hnd with ⟨hno, _⟩
        by_contra hcon
        have : (k1 == kv.1) = true := by
          cases himp : (k1 == kv.1) with
          | false => exact absurd himp hcon
          | true => rfl
        obtain rfl : k1 = kv.1 := by simpa using this
        rw [hk] at hno
        cases hno
      rcases hnd with ⟨_, hres⟩
      simpa [fieldsLookup, hne] using ih hres kv hm

/-- The key loop of comparePlainObjects accepts exactly when every entry of
the first object is matched in the second by a recursively equal value. -/
theorem compareOwnKeys_true_iff :
    ∀ (a b : Fields), compareOwnKeys a b = true ↔
      ∀ kv ∈ fieldsEntries a,
        ∃ w, fieldsLookup b kv.1 = some w ∧ compareValue kv.2 w = true := by
  intro a b
  induction a using fieldsRecOn with
  | h0 => simp [compareOwnKeys, fieldsEntries]
  | h1 k v rest ih =>
    cases h : fieldsLookup b k with
    | none =>
      simp only [compareOwnKeys, h]
      constructor
      · intro hfalse; cases hfalse
      · intro hall
        obtain ⟨w, hw, _⟩ := hall (k, v) (by simp [fieldsEntries])
        rw [h] at hw; cases hw
    | some w =>
      simp only [compareOwnKeys, h, Bool.and_eq_true]
      constructor
      · rintro ⟨hv, hrest⟩ kv hm
        simp only [fieldsEntries, List.mem_cons] at hm
        rcases hm with rfl | hm
        · exact ⟨w, h, hv⟩
        · exact (ih.mp hrest) kv hm
      · intro hall
        refine ⟨?_, ih.mpr ?_⟩
        · obtain ⟨w1, hw1, hcmp⟩ := hall (k, v) (by simp [fieldsEntries])
          rw [h] at hw1
          obtain rfl : w = w1 := by simpa using hw1
          exact hcmp
        · intro kv hm
          exact hall kv (by simp [fieldsEntries, hm])

/-- Claim C1: for Record roots, compare(a, b) returns true exactly when a
and b carry the same count of own enumerable string keys and every key of a
is an own key of b whose value compares recursively equal; an extra key in
b alone already fails the count comparison. -/
theorem c1 (a b : Val) (ha : isPlainObject a = true) (hb : isPlainObject b = true)
    (hnd : fieldsNodup (fieldsOf a) = true) :
    Tspo.compare a b = .ok true ↔
      (fieldsLength (fieldsOf a) = fieldsLength (fieldsOf b) ∧
        ∀ k v, fieldsLookup (fieldsOf a) k = some v →
          ∃ w, fieldsLookup (fieldsOf b) k = some w ∧ compareValue v w = true) := by
  have hc : Tspo.compare a b = .ok (comparePlainObjects (fieldsOf a) (fieldsOf b)) := by
    simp [Tspo.compare, ha, hb]
  rw [hc]
  have hstep :
      comparePlainObjects (fieldsOf a) (fieldsOf b) = true ↔
        (fieldsLength (fieldsOf a) = fieldsLength (fieldsOf b) ∧
          ∀ k v, fieldsLookup (fieldsOf a) k = some v →
            ∃ w, fieldsLookup (fieldsOf b) k = some w ∧ compareValue v w = true) := by
    rw [comparePlainObjects, Bool.and_eq_true, compareOwnKeys_true_iff]
    constructor
    · rintro ⟨hent, hlen⟩
      refine ⟨by simpa using hlen, ?_⟩
      intro k v hlk
      exact hent (k, v) (fieldsLookup_mem (fieldsOf a) k v hlk)
    · rintro ⟨hlen, hlk⟩
      refine ⟨?_, by simpa using hlen⟩
      intro kv hm
      exact hlk kv.1 kv.2 (fieldsEntries_lookup (fieldsOf a) hnd kv hm)
  constructor
  · intro h
    exact hstep.mp (by simpa using h)
  · intro h
    rw [hstep.mpr h]

/-- Claim C1 witness: the equivalence instantiated at two concrete records
with one key each. -/
theorem c1_witness :
    Tspo.compare
        (.obj 0 .objectProto false false (.cons "a" (.prim (.num (.intVal 1))) .nil))
        (.obj 1 .objectProto false false (.cons "a" (.prim (.num (.intVal 1))) .nil)) =
        .ok true ↔
      (fieldsLength (fieldsOf
            (.obj 0 .objectProto false false (.cons "a" (.prim (.num (.intVal 1))) .nil))) =
          fieldsLength (fieldsOf
            (.obj 1 .objectProto false false (.cons "a" (.prim (.num (.intVal 1))) .nil))) ∧
        ∀ k v,
          fieldsLookup (fieldsOf
              (.obj 0 .objectProto false false (.cons "a" (.prim (.num (.intVal 1))) .nil))) k =
            some v →
          ∃ w,
            fieldsLookup (fieldsOf
                (.obj 1 .objectProto false false (.cons "a" (.prim (.num (.intVal 1))) .nil))) k =
              some w ∧ compareValue v w = true) :=
  c1 (.obj 0 .objectProto false false (.cons "a" (.prim (.num (.intVal 1))) .nil))
    (.obj 1 .objectProto false false (.cons "a" (.prim (.num (.intVal 1))) .nil))
    rfl rfl rfl

/-- Claim C2: copy rejects exactly the roots the classifier rejects, and
compare rejects exactly the calls where either root is rejected; the
rejection is the InvalidRootKind condition in both cases, raised by the
root check before any traversal, and no other error condition exists in
either operation. -/
theorem c2 :
    (∀ (v : Val) (o : CopyOptions) (now : Int) (n : Nat),
      copy v o now n = .error .invalidRootKind ↔ isPlainObject v = false) ∧
    (∀ a b : Val,
      Tspo.compare a b = .error .invalidRootKind ↔
        (isPlainObject a = false ∨ isPlainObject b = false)) ∧
    (∀ (v : Val) (o : CopyOptions) (now : Int) (n : Nat) (e : PojoErr),
      copy v o now n = .error e → e = .invalidRootKind) ∧
    (∀ (a b : Val) (e : PojoErr),
      Tspo.compare a b = .error e → e = .invalidRootKind) := by
  refine ⟨?_, ?_, ?_, ?_⟩
  · intro v o now n
    by_cases h : isPlainObject v = true
    · simp [copy, h]
    · have h2 : isPlainObject v = false := by simpa using h
      simp [copy, h2]
  · intro a b
    by_cases ha : isPlainObject a = true <;> by_cases hb : isPlainObject b = true <;>
      simp_all [Tspo.compare]
  · intro v o now n e _
    cases e; rfl
  · intro a b e _
    cases e; rfl

/-- Claim C5: primitive against primitive follows the numeric identity of
Object.is, under which NaN equals NaN while positive and negative zero are
distinct; hence the two record comparisons of the specification. -/
theorem c5 :
    (∀ p q : Prim, compareValue (.prim p) (.prim q) = (p == q)) ∧
    ((Prim.num .nan == Prim.num .nan) = true ∧
      (Prim.num .posZero == Prim.num .negZero) = false) ∧
    Tspo.compare (.obj 0 .objectProto false false (.cons "n" (.prim (.num .nan)) .nil))
        (.obj 1 .objectProto false false (.cons "n" (.prim (.num .nan)) .nil)) =
      .ok true ∧
    Tspo.compare (.obj 0 .objectProto false false (.cons "n" (.prim (.num .posZero)) .nil))
        (.obj 1 .objectProto false false (.cons "n" (.prim (.num .negZero)) .nil)) =
      .ok false := by
  refine ⟨?_, by decide, rfl, rfl⟩
  intro p q
  by_cases h : (p == q) = true
  · simp [compareValue, objectIs, h]
  · have h2 : (p == q) = false := by simpa using h
    simp [compareValue, objectIs, isDateVal, isArrayVal, isPlainObject, isObjectTyped, h2]

/-- Claim C8: a value exposing the type-tag capability or the iteration
capability is never classified as a Record, whatever its prototype lineage;
maps, sets and dates are likewise never classified as Records. -/
theorem c8 :
    (∀ (id : Nat) (p : Proto) (tag iter : Bool) (fs : Fields),
      (tag || iter) = true → isPlainObject (.obj id p tag iter fs) = false) ∧
    (∀ (id : Nat) (es : MapEntries), isPlainObject (.mapV id es) = false) ∧
    (∀ (id : Nat) (ms : Elems), isPlainObject (.setV id ms) = false) ∧
    (∀ (id : Nat) (t : Int), isPlainObject (.date id t) = false) := by
  refine ⟨?_, fun _ _ => rfl, fun _ _ => rfl, fun _ _ => rfl⟩
  intro id p tag iter fs h
  cases tag <;> cases iter <;> simp_all [isPlainObject]

/-- Claim C9: an Ordered List given directly as the root makes the walk a
silent no-op with zero callback invocations, while the same list nested
inside a Record root is descended into and has its entries visited. -/
theorem c9 :
    (∀ (id : Nat) (xs : Elems), iterate (.arr id xs) = []) ∧
    iterate (.obj 0 .objectProto false false
        (.cons "a" (.arr 1 (.cons (.prim (.num (.intVal 7))) .nil)) .nil)) =
      [⟨.obj 0 .objectProto false false
          (.cons "a" (.arr 1 (.cons (.prim (.num (.intVal 7))) .nil)) .nil),
        .str "a", .arr 1 (.cons (.prim (.num (.intVal 7))) .nil), []⟩,
        ⟨.arr 1 (.cons (.prim (.num (.intVal 7))) .nil), .idx 0,
          .prim (.num (.intVal 7)), [.str "a"]⟩] := by
  exact ⟨fun id xs => rfl, rfl⟩

/-- Claim C10: a value the classifier accepts whose lineage is one custom
link deep is rebuilt by clone with the universal base lineage, not with its
custom parent; the no-parent and universal-base lineages are the only two
reproduced exactly. -/
theorem c10 (id : Nat) (p : Proto) (fs : Fields) (rd dc : Bool) (now : Int) (n : Nat)
    (h : isPlainObject (.obj id p false false fs) = true) :
    ∃ F q, copy (.obj id p false false fs) ⟨rd, dc⟩ now n = .ok (.obj n q false false F) ∧
      q = (if p == .nullProto then .nullProto else .objectProto) ∧
      (p = .customNullParent → q ≠ p) ∧
      ((p = .nullProto ∨ p = .objectProto) → q = p) := by
  refine ⟨(cloneFields fs rd dc now (n + 1)).1,
    (if p == .nullProto then Proto.nullProto else .objectProto), ?_, rfl, ?_, ?_⟩
  · simp [copy, h, clonePlainObject, protoOf, fieldsOf]
  · rintro rfl; simp
  · rintro (rfl | rfl) <;> simp

/-- Claim C10 witness: the rebuild instantiated at a concrete object with
the one-deep custom lineage. -/
theorem c10_witness :
    ∃ F q,
      copy (.obj 3 .customNullParent false false .nil) ⟨false, false⟩ 0 7 =
        .ok (.obj 7 q false false F) ∧
      q = (if Proto.customNullParent == Proto.nullProto then Proto.nullProto
        else .objectProto) ∧
      (Proto.customNullParent = Proto.customNullParent → q ≠ Proto.customNullParent) ∧
      ((Proto.customNullParent = Proto.nullProto ∨
          Proto.customNullParent = Proto.objectProto) →
        q = Proto.customNullParent) :=
  c10 3 .customNullParent .nil false false 0 7 rfl

/-- The allocation counter of clone never decreases, on any carrier of the
value family. -/
theorem cloneMono_all :
    (∀ v, CloneMonoV v) ∧ (∀ fs, CloneMonoF fs) ∧
      (∀ xs, CloneMonoE xs) ∧ (∀ es, CloneMonoM es) := by
  have hprim : ∀ p, CloneMonoV (.prim p) := by
    intro p rd dc now n; simp [CloneMonoV, cloneValue]
  have hfunc : ∀ i, CloneMonoV (.func i) := by
    intro i rd dc now n; simp [CloneMonoV, cloneValue]
  have hobj : ∀ (id : Nat) (p : Proto) (tag iter : Bool) (fs : Fields),
      CloneMonoF fs → CloneMonoV (.obj id p tag iter fs) := by
    intro id p tag iter fs ih rd dc now n
    simp only [cloneValue]
    split
    · exact le_trans (Nat.le_succ n) (ih rd dc now (n + 1))
    · split
      · exact le_trans (Nat.le_succ n) (ih rd true now (n + 1))
      · exact Nat.le_succ n
  have harr : ∀ (id : Nat) (xs : Elems), CloneMonoE xs → CloneMonoV (.arr id xs) := by
    intro id xs ih rd dc now n
    simp only [cloneValue]
    exact le_trans (Nat.le_succ n) (ih rd dc now (n + 1))
  have hdate : ∀ (id : Nat) (t : Int), CloneMonoV (.date id t) := by
    intro id t rd dc now n
    simp only [cloneValue]
    split <;> exact Nat.le_succ n
  have hregex : ∀ (id : Nat) (s f : String) (li : Nat), CloneMonoV (.regex id s f li) := by
    intro id s f li rd dc now n; simp [cloneValue]
  have hmap : ∀ (id : Nat) (es : MapEntries), CloneMonoM es → CloneMonoV (.mapV id es) := by
    intro id es ih rd dc now n
    simp only [cloneValue]
    split
    · exact le_trans (Nat.le_succ n) (ih rd now (n + 1))
    · exact Nat.le_succ n
  have hset : ∀ (id : Nat) (ms : Elems), CloneMonoE ms → CloneMonoV (.setV id ms) := by
    intro id ms ih rd dc now n
    simp only [cloneValue]
    split
    · exact le_trans (Nat.le_succ n) (ih rd true now (n + 1))
    · exact Nat.le_succ n
  have hbuf : ∀ (id : Nat) (bs : List Nat), CloneMonoV (.buffer id bs) := by
    intro id bs rd dc now n; simp [cloneValue]
  have hview : ∀ (id : Nat) (k : ViewKind) (b off len : Nat) (data : List Nat),
      CloneMonoV (.view id k b off len data) := by
    intro id k b off len data rd dc now n
    simp only [cloneValue]
    omega
  have hfnil : CloneMonoF .nil := by
    intro rd dc now n; simp [cloneFields]
  have hfcons : ∀ (k : String) (v : Val) (r : Fields),
      CloneMonoV v → CloneMonoF r → CloneMonoF (.cons k v r) := by
    intro k v r ihv ihr rd dc now n
    simp only [cloneFields]
    exact le_trans (ihv rd dc now n) (ihr rd dc now (cloneValue v rd dc now n).2)
  have henil : CloneMonoE .nil := by
    intro rd dc now n; simp [cloneElems]
  have hecons : ∀ (v : Val) (r : Elems),
      CloneMonoV v → CloneMonoE r → CloneMonoE (.cons v r) := by
    intro v r ihv ihr rd dc now n
    simp only [cloneElems]
    exact le_trans (ihv rd dc now n) (ihr rd dc now (cloneValue v rd dc now n).2)
  have hmnil : CloneMonoM .nil := by
    intro rd now n; simp [cloneMapEntries]
  have hmcons : ∀ (k v : Val) (r : MapEntries),
      CloneMonoV k → CloneMonoV v → CloneMonoM r → CloneMonoM (.cons k v r) := by
    intro k v r ihk ihv ihr rd now n
    simp only [cloneMapEntries]
    exact le_trans (ihk rd true now n)
      (le_trans (ihv rd true now (cloneValue k rd true now n).2)
        (ihr rd now (cloneValue v rd true now (cloneValue k rd true now n).2).2))
  exact ⟨fun v => Val.rec hprim hfunc hobj harr hdate hregex hmap hset hbuf hview
      hfnil hfcons henil hecons hmnil hmcons v,
    fun fs => Fields.rec hprim hfunc hobj harr hdate hregex hmap hset hbuf hview
      hfnil hfcons henil hecons hmnil hmcons fs,
    fun xs => Elems.rec hprim hfunc hobj harr hdate hregex hmap hset hbuf hview
      hfnil hfcons henil hecons hmnil hmcons xs,
    fun es => MapEntries.rec hprim hfunc hobj harr hdate hregex hmap hset hbuf hview
      hfnil hfcons henil hecons hmnil hmcons es⟩

/-- Looking a key up in the cloned entries finds the clone of what the key
looked up to in the source, run at some intermediate counter at least the
starting one. -/
theorem cloneFields_lookup :
    ∀ (fs : Fields) (rd dc : Bool) (now : Int) (n : Nat) (k : String) (v : Val),
      fieldsLookup fs k = some v →
      ∃ m, n ≤ m ∧
        fieldsLookup (cloneFields fs rd dc now n).1 k = some (cloneValue v rd dc now m).1 := by
  intro fs
  induction fs using fieldsRecOn with
  | h0 => intro rd dc now n k v h; simp [fieldsLookup] at h
  | h1 k1 v1 r ih =>
    intro rd dc now n k v h
    have hunf : (cloneFields (Fields.cons k1 v1 r) rd dc now n).1 =
        .cons k1 (cloneValue v1 rd dc now n).1
          (cloneFields r rd dc now (cloneValue v1 rd dc now n).2).1 := rfl
    rw [hunf]
    simp only [fieldsLookup] at h ⊢
    by_cases hk : (k1 == k) = true
    · rw [if_pos hk] at h
      obtain rfl : v1 = v := by simpa using h
      exact ⟨n, le_refl n, by rw [if_pos hk]⟩
    · rw [if_neg hk] at h
      obtain ⟨m, hm, heq⟩ := ih rd dc now (cloneValue v1 rd dc now n).2 k v h
      exact ⟨m, le_trans (cloneMono_all.1 v1 rd dc now n) hm, by rw [if_neg hk]; exact heq⟩

/-- Every container clone carries the identity the counter held on entry. -/
theorem refId_cloneValue (v : Val) (rd dc : Bool) (now : Int) (n : Nat)
    (h : isObjectTyped v = true) : refId (cloneValue v rd dc now n).1 = some n := by
  cases v with
  | prim p => simp [isObjectTyped] at h
  | func i => simp [isObjectTyped] at h
  | obj id p tag iter fs =>
    simp only [cloneValue]
    split
    · rfl
    · split <;> rfl
  | arr id xs => rfl
  | date id t =>
    simp only [cloneValue]
    split <;> rfl
  | regex id s f li => rfl
  | mapV id es =>
    simp only [cloneValue]
    split <;> rfl
  | setV id ms =>
    simp only [cloneValue]
    split <;> rfl
  | buffer id bs => rfl
  | view id k b off len data => rfl

/-- Identities of a looked-up value occur among the identities of the
entries. -/
theorem ids_of_lookup :
    ∀ (fs : Fields) (k : String) (v : Val), fieldsLookup fs k = some v →
      ∀ i ∈ idsV v, i ∈ idsF fs := by
  intro fs
  induction fs using fieldsRecOn with
  | h0 => intro k v h; simp [fieldsLookup] at h
  | h1 k1 v1 r ih =>
    intro k v h i hi
    simp only [fieldsLookup] at h
    simp only [idsF, List.mem_append]
    by_cases hk : (k1 == k) = true
    · rw [if_pos hk] at h
      obtain rfl : v1 = v := by simpa using h
      exact Or.inl hi
    · rw [if_neg hk] at h
      exact Or.inr (ih k v h i hi)

/-- Claim C4: cloning a Record with a nested Temporal Value yields a new
Temporal Value, a reference distinct from every reference of the source;
without resetTemporal it carries the instant of the source, with
resetTemporal it carries the clone-time instant. -/
theorem c4 (r : Val) (k : String) (did : Nat) (t : Int) (rd dc : Bool) (now : Int)
    (n : Nat) (hplain : isPlainObject r = true)
    (hfield : fieldsLookup (fieldsOf r) k = some (.date did t))
    (hfresh : ∀ i ∈ idsV r, i < n) :
    ∃ X m, copy r ⟨rd, dc⟩ now n = .ok X ∧
      fieldsLookup (fieldsOf X) k = some (.date m (if rd then now else t)) ∧
      m ≠ did ∧ m ∉ idsV r := by
  cases r with
  | prim p => simp [isPlainObject] at hplain
  | func i => simp [isPlainObject] at hplain
  | obj id p tag iter fs =>
    obtain ⟨m, hm, heq⟩ :=
      cloneFields_lookup fs rd dc now (n + 1) k (.date did t) hfield
    have hdid : did ∈ idsV (.obj id p tag iter fs) := by
      have := ids_of_lookup fs k (.date did t) hfield did (by simp [idsV])
      simp [idsV, this]
    have hnot : m ∉ idsV (.obj id p tag iter fs) := by
      intro hmem
      have := hfresh m hmem
      omega
    refine ⟨(clonePlainObject p fs rd dc now n).1, m, ?_, ?_, ?_, hnot⟩
    · simp [copy, hplain, protoOf, fieldsOf]
    · have hfx : fieldsOf (clonePlainObject p fs rd dc now n).1 =
        (cloneFields fs rd dc now (n + 1)).1 := rfl
      rw [hfx, heq]
      cases rd <;> rfl
    · intro hcon
      rw [hcon] at hnot
      exact hnot hdid
  | arr id xs => simp [isPlainObject] at hplain
  | date id t2 => simp [isPlainObject] at hplain
  | regex id s f li => simp [isPlainObject] at hplain
  | mapV id es => simp [isPlainObject] at hplain
  | setV id ms => simp [isPlainObject] at hplain
  | buffer id bs => simp [isPlainObject] at hplain
  | view id kk b off len data => simp [isPlainObject] at hplain

/-- Claim C4 witness: the temporal clone instantiated at a concrete record
with one nested date, both with the flag clear (same instant kept) shown by
evaluating the conclusion. -/
theorem c4_witness :
    ∃ X m, copy (.obj 0 .objectProto false false (.cons "d" (.date 1 5) .nil))
        ⟨false, false⟩ 9 2 = .ok X ∧
      fieldsLookup (fieldsOf X) "d" = some (.date m (if false then 9 else 5)) ∧
      m ≠ 1 ∧ m ∉ idsV (.obj 0 .objectProto false false (.cons "d" (.date 1 5) .nil)) :=
  c4 (.obj 0 .objectProto false false (.cons "d" (.date 1 5) .nil)) "d" 1 5 false false 9 2
    rfl rfl (by decide)

/-- A byte write through a buffer identity that occurs nowhere in a value
leaves the value unchanged, on any carrier of the value family. -/
theorem noAlias_all :
    (∀ v, NoAliasV v) ∧ (∀ fs, NoAliasF fs) ∧ (∀ xs, NoAliasE xs) ∧ (∀ es, NoAliasM es) := by
  have hprim : ∀ p, NoAliasV (.prim p) := by intro p bid j b _; rfl
  have hfunc : ∀ i, NoAliasV (.func i) := by intro i bid j b _; rfl
  have hobj : ∀ (id : Nat) (p : Proto) (tag iter : Bool) (fs : Fields),
      NoAliasF fs → NoAliasV (.obj id p tag iter fs) := by
    intro id p tag iter fs ih bid j b hmem
    have : bid ∉ idsF fs := by
      intro hc; exact hmem (by simp [idsV, hc])
    simp [setByteV, ih bid j b this]
  have harr : ∀ (id : Nat) (xs : Elems), NoAliasE xs → NoAliasV (.arr id xs) := by
    intro id xs ih bid j b hmem
    have : bid ∉ idsE xs := by
      intro hc; exact hmem (by simp [idsV, hc])
    simp [setByteV, ih bid j b this]
  have hdate : ∀ (id : Nat) (t : Int), NoAliasV (.date id t) := by
    intro id t bid j b _; rfl
  have hregex : ∀ (id : Nat) (s f : String) (li : Nat), NoAliasV (.regex id s f li) := by
    intro id s f li bid j b _; rfl
  have hmap : ∀ (id : Nat) (es : MapEntries), NoAliasM es → NoAliasV (.mapV id es) := by
    intro id es ih bid j b hmem
    have : bid ∉ idsM es := by
      intro hc; exact hmem (by simp [idsV, hc])
    simp [setByteV, ih bid j b this]
  have hset : ∀ (id : Nat) (ms : Elems), NoAliasE ms → NoAliasV (.setV id ms) := by
    intro id ms ih bid j b hmem
    have : bid ∉ idsE ms := by
      intro hc; exact hmem (by simp [idsV, hc])
    simp [setByteV, ih bid j b this]
  have hbuf : ∀ (id : Nat) (bs : List Nat), NoAliasV (.buffer id bs) := by
    intro id bs bid j b hmem
    have hne : (id == bid) = false := by
      simp only [idsV, List.mem_singleton] at hmem
      simpa using fun hc : id = bid => hmem hc.symm
    simp [setByteV, hne]
  have hview : ∀ (id : Nat) (k : ViewKind) (bf off len : Nat) (data : List Nat),
      NoAliasV (.view id k bf off len data) := by
    intro id k bf off len data bid j b hmem
    have hne : (bf == bid) = false := by
      simp only [idsV] at hmem
      have : bf ≠ bid := by
        intro hc; exact hmem (by simp [hc])
      simpa using this
    simp [setByteV, hne]
  have hfnil : NoAliasF .nil := by intro bid j b _; rfl
  have hfcons : ∀ (k : String) (v : Val) (r : Fields),
      NoAliasV v → NoAliasF r → NoAliasF (.cons k v r) := by
    intro k v r ihv ihr bid j b hmem
    simp only [idsF, List.mem_append] at hmem
    push_neg at hmem
    simp [setByteF, ihv bid j b hmem.1, ihr bid j b hmem.2]
  have henil : NoAliasE .nil := by intro bid j b _; rfl
  have hecons : ∀ (v : Val) (r : Elems), NoAliasV v → NoAliasE r → NoAliasE (.cons v r) := by
    intro v r ihv ihr bid j b hmem
    simp only [idsE, List.mem_append] at hmem
    push_neg at hmem
    simp [setByteE, ihv bid j b hmem.1, ihr bid j b hmem.2]
  have hmnil : NoAliasM .nil := by intro bid j b _; rfl
  have hmcons : ∀ (k v : Val) (r : MapEntries),
      NoAliasV k → NoAliasV v → NoAliasM r → NoAliasM (.cons k v r) := by
    intro k v r ihk ihv ihr bid j b hmem
    simp only [idsM, List.mem_append] at hmem
    push_neg at hmem
    simp [setByteM, ihk bid j b hmem.1.1, ihv bid j b hmem.1.2, ihr bid j b hmem.2]
  exact ⟨fun v => Val.rec hprim hfunc hobj harr hdate hregex hmap hset hbuf hview
      hfnil hfcons henil hecons hmnil hmcons v,
    fun fs => Fields.rec hprim hfunc hobj harr hdate hregex hmap hset hbuf hview
      hfnil hfcons henil hecons hmnil hmcons fs,
    fun xs => Elems.rec hprim hfunc hobj harr hdate hregex hmap hset hbuf hview
      hfnil hfcons henil hecons hmnil hmcons xs,
    fun es => MapEntries.rec hprim hfunc hobj harr hdate hregex hmap hset hbuf hview
      hfnil hfcons henil hecons hmnil hmcons es⟩

/-- Claim C6 counterexample: the claim says the byte offset of a cloned
view is preserved, but the source clones a typed-array view by slice(),
which packs the viewed window into a fresh buffer at byte offset zero.
cxBufRecord holds a view with byteOffset 2; the clone of that view has
byteOffset 0, so offset preservation fails while view kind, byteLength and
the window bytes (5 and 6) are kept. -/
theorem c6_cx :
    fieldsLookup (fieldsOf cxBufRecord) "v" =
      some (.view 1 .uint8 5 2 2 [9, 9, 5, 6, 9]) ∧
    copy cxBufRecord ⟨false, false⟩ 0 10 =
      .ok (.obj 10 .objectProto false false
        (.cons "v" (.view 11 .uint8 12 0 2 [5, 6]) .nil)) ∧
    (0 : Nat) ≠ 2 :=
  ⟨rfl, rfl, by decide⟩

/-- Claim C6 as amended: cloning a Record with a nested Binary Buffer or
Buffer View always (whatever the option flags) produces an independent copy
of the underlying bytes. A raw buffer clones to a fresh buffer with exactly
the same bytes. A view clones to a view of the same view type and the same
byteLength over a fresh buffer holding exactly the viewed byte window, but
at byte offset zero rather than the source offset. In both cases the fresh
buffer identity occurs nowhere in the source, so writing any byte through
the clone leaves the source unchanged. -/
theorem c6_amended :
    (∀ (r : Val) (k : String) (bufid : Nat) (bytes : List Nat) (rd dc : Bool)
        (now : Int) (n : Nat),
      isPlainObject r = true →
      fieldsLookup (fieldsOf r) k = some (.buffer bufid bytes) →
      (∀ i ∈ idsV r, i < n) →
      ∃ X m, copy r ⟨rd, dc⟩ now n = .ok X ∧
        fieldsLookup (fieldsOf X) k = some (.buffer m bytes) ∧
        m ∉ idsV r ∧
        ∀ j b, setByteV m j b r = r) ∧
    (∀ (r : Val) (k : String) (vid : Nat) (kind : ViewKind) (bufId off len : Nat)
        (data : List Nat) (rd dc : Bool) (now : Int) (n : Nat),
      isPlainObject r = true →
      fieldsLookup (fieldsOf r) k = some (.view vid kind bufId off len data) →
      (∀ i ∈ idsV r, i < n) →
      ∃ X m, copy r ⟨rd, dc⟩ now n = .ok X ∧
        fieldsLookup (fieldsOf X) k =
          some (.view m kind (m + 1) 0 len (listWindow data off len)) ∧
        m ∉ idsV r ∧ (m + 1) ∉ idsV r ∧
        ∀ j b, setByteV (m + 1) j b r = r) := by
  constructor
  · intro r k bufid bytes rd dc now n hplain hfield hfresh
    cases r with
    | prim p => simp [isPlainObject] at hplain
    | func i => simp [isPlainObject] at hplain
    | obj id p tag iter fs =>
      obtain ⟨m, hm, heq⟩ :=
        cloneFields_lookup fs rd dc now (n + 1) k (.buffer bufid bytes) hfield
      have hnot : m ∉ idsV (.obj id p tag iter fs) := by
        intro hmem
        have := hfresh m hmem
        omega
      refine ⟨(clonePlainObject p fs rd dc now n).1, m, ?_, ?_, hnot, ?_⟩
      · simp [copy, hplain, protoOf, fieldsOf]
      · have hfx : fieldsOf (clonePlainObject p fs rd dc now n).1 =
          (cloneFields fs rd dc now (n + 1)).1 := rfl
        rw [hfx, heq]
        rfl
      · intro j b
        exact noAlias_all.1 (.obj id p tag iter fs) m j b hnot
    | arr id xs => simp [isPlainObject] at hplain
    | date id t => simp [isPlainObject] at hplain
    | regex id s f li => simp [isPlainObject] at hplain
    | mapV id es => simp [isPlainObject] at hplain
    | setV id ms => simp [isPlainObject] at hplain
    | buffer id bs => simp [isPlainObject] at hplain
    | view id kk b off2 len2 data2 => simp [isPlainObject] at hplain
  · intro r k vid kind bufId off len data rd dc now n hplain hfield hfresh
    cases r with
    | prim p => simp [isPlainObject] at hplain
    | func i => simp [isPlainObject] at hplain
    | obj id p tag iter fs =>
      obtain ⟨m, hm, heq⟩ :=
        cloneFields_lookup fs rd dc now (n + 1) k (.view vid kind bufId off len data) hfield
      have hnot : m ∉ idsV (.obj id p tag iter fs) := by
        intro hmem
        have := hfresh m hmem
        omega
      have hnot1 : (m + 1) ∉ idsV (.obj id p tag iter fs) := by
        intro hmem
        have := hfresh (m + 1) hmem
        omega
      refine ⟨(clonePlainObject p fs rd dc now n).1, m, ?_, ?_, hnot, hnot1, ?_⟩
      · simp [copy, hplain, protoOf, fieldsOf]
      · have hfx : fieldsOf (clonePlainObject p fs rd dc now n).1 =
          (cloneFields fs rd dc now (n + 1)).1 := rfl
        rw [hfx, heq]
        rfl
      · intro j b
        exact noAlias_all.1 (.obj id p tag iter fs) (m + 1) j b hnot1
    | arr id xs => simp [isPlainObject] at hplain
    | date id t => simp [isPlainObject] at hplain
    | regex id s f li => simp [isPlainObject] at hplain
    | mapV id es => simp [isPlainObject] at hplain
    | setV id ms => simp [isPlainObject] at hplain
    | buffer id bs => simp [isPlainObject] at hplain
    | view id kk b off2 len2 data2 => simp [isPlainObject] at hplain

/-- Claim C6 witness: both halves of the amended buffer-clone property
instantiated concretely, the raw-buffer half at a record holding a two-byte
buffer and the view half at the record with the offset-2 view. -/
theorem c6_witness :
    (∃ X m, copy (.obj 0 .objectProto false false (.cons "b" (.buffer 1 [7, 8]) .nil))
        ⟨false, false⟩ 0 10 = .ok X ∧
      fieldsLookup (fieldsOf X) "b" = some (.buffer m [7, 8]) ∧
      m ∉ idsV (.obj 0 .objectProto false false (.cons "b" (.buffer 1 [7, 8]) .nil)) ∧
      ∀ j b, setByteV m j b
          (.obj 0 .objectProto false false (.cons "b" (.buffer 1 [7, 8]) .nil)) =
        .obj 0 .objectProto false false (.cons "b" (.buffer 1 [7, 8]) .nil)) ∧
    (∃ X m, copy cxBufRecord ⟨false, false⟩ 0 10 = .ok X ∧
      fieldsLookup (fieldsOf X) "v" =
        some (.view m .uint8 (m + 1) 0 2 (listWindow [9, 9, 5, 6, 9] 2 2)) ∧
      m ∉ idsV cxBufRecord ∧ (m + 1) ∉ idsV cxBufRecord ∧
      ∀ j b, setByteV (m + 1) j b cxBufRecord = cxBufRecord) :=
  ⟨c6_amended.1 (.obj 0 .objectProto false false (.cons "b" (.buffer 1 [7, 8]) .nil))
      "b" 1 [7, 8] false false 0 10 rfl rfl (by decide),
    c6_amended.2 cxBufRecord "v" 1 .uint8 5 2 2 [9, 9, 5, 6, 9] false false 0 10
      rfl rfl (by decide)⟩

/-- Key membership is a function of the key list. -/
theorem fieldsHasKey_eq_any :
    ∀ (fs : Fields) (q : String),
      fieldsHasKey fs q = (fieldsKeys fs).any (fun s => s == q) := by
  intro fs
  induction fs using fieldsRecOn with
  | h0 => intro q; simp [fieldsHasKey, fieldsKeys]
  | h1 k v r ih => intro q; simp [fieldsHasKey, fieldsKeys, ih]

/-- Two objects with the same key list find the same keys. -/
theorem fieldsHasKey_congr (a b : Fields) (h : fieldsKeys a = fieldsKeys b) (k : String) :
    fieldsHasKey a k = fieldsHasKey b k := by
  rw [fieldsHasKey_eq_any, fieldsHasKey_eq_any, h]

/-- The key loop ignores an entry of the second object whose key the first
object does not carry. -/
theorem compareOwnKeys_skip :
    ∀ (a : Fields) (k : String) (w : Val) (b : Fields),
      fieldsHasKey a k = false →
      compareOwnKeys a (.cons k w b) = compareOwnKeys a b := by
  intro a
  induction a using fieldsRecOn with
  | h0 => intro k w b h; rfl
  | h1 k1 v1 r ih =>
    intro k w b h
    have h1 : (k1 == k) = false := by
      cases hc : (k1 == k) with
      | false => rfl
      | true => rw [fieldsHasKey, hc] at h; simp at h
    have h2 : fieldsHasKey r k = false := by
      rw [fieldsHasKey, h1] at h
      simpa using h
    have hlk : fieldsLookup (Fields.cons k w b) k1 = fieldsLookup b k1 := by
      have hne : (k == k1) = false := by
        have : ¬(k1 = k) := by simpa using h1
        simpa using fun hc : k = k1 => this hc.symm
      simp [fieldsLookup, hne]
    simp only [compareOwnKeys, hlk]
    cases hb : fieldsLookup b k1 with
    | none => rfl
    | some w1 => rw [ih k w b h2]

/-- A freshly rebuilt plain object compares equal to a plain object whose
entries its own entries match key for key. -/
theorem compareValue_obj_plain (n id : Nat) (q p : Proto) (tag iter : Bool)
    (F fs : Fields) (hq : protoAdmissible q = true)
    (hp : (protoAdmissible p && !tag && !iter) = true)
    (hok : compareOwnKeys F fs = true) (hlen : fieldsLength F = fieldsLength fs) :
    compareValue (.obj n q false false F) (.obj id p tag iter fs) = true := by
  by_cases hoi : objectIs (.obj n q false false F) (.obj id p tag iter fs) = true
  · simp [compareValue, hoi]
  · have hoi2 : objectIs (.obj n q false false F) (.obj id p tag iter fs) = false := by
      simpa using hoi
    simp [compareValue, hoi2, isDateVal, isArrayVal, isPlainObject, hq, hp, hok, hlen]

/-- A freshly rebuilt array compares equal to an array its elements match
index for index. -/
theorem compareValue_arr (n id : Nat) (E xs : Elems)
    (hlen : elemsLength E = elemsLength xs) (hcmp : compareElems E xs = true) :
    compareValue (.arr n E) (.arr id xs) = true := by
  by_cases hoi : objectIs (.arr n E) (.arr id xs) = true
  · simp [compareValue, hoi]
  · have hoi2 : objectIs (.arr n E) (.arr id xs) = false := by simpa using hoi
    simp [compareValue, hoi2, isDateVal, isArrayVal, hlen, hcmp]

/-- Clone output compares equal to its source on the tame fragment, on any
carrier of the value family. -/
theorem cloneCmp_all :
    (∀ v, CloneCmpV v) ∧ (∀ fs, CloneCmpF fs) ∧ (∀ xs, CloneCmpE xs) ∧ (∀ es, TrivM es) := by
  have hprim : ∀ p, CloneCmpV (.prim p) := by
    intro p dc now n _
    simp [cloneValue, compareValue, objectIs]
  have hfunc : ∀ i, CloneCmpV (.func i) := by
    intro i dc now n _
    simp [cloneValue, compareValue, objectIs, refId]
  have hobj : ∀ (id : Nat) (p : Proto) (tag iter : Bool) (fs : Fields),
      CloneCmpF fs → CloneCmpV (.obj id p tag iter fs) := by
    intro id p tag iter fs ih dc now n htame
    simp only [tame, Bool.and_eq_true] at htame
    obtain ⟨⟨⟨⟨hadm, htg⟩, hit⟩, hnd⟩, htf⟩ := htame
    have hpl : (protoAdmissible p && !tag && !iter) = true := by
      rw [hadm, htg, hit]; rfl
    obtain ⟨hkeys, hlen, hok⟩ := ih dc now (n + 1)
    have hclone : (cloneValue (.obj id p tag iter fs) false dc now n).1 =
        .obj n (if p == .nullProto then .nullProto else .objectProto) false false
          (cloneFields fs false dc now (n + 1)).1 := by
      simp [cloneValue, hpl]
    rw [hclone]
    exact compareValue_obj_plain n id
      (if p == .nullProto then .nullProto else .objectProto) p tag iter
      (cloneFields fs false dc now (n + 1)).1 fs
      (by cases p <;> rfl) hpl (hok hnd htf) hlen
  have harr : ∀ (id : Nat) (xs : Elems), CloneCmpE xs → CloneCmpV (.arr id xs) := by
    intro id xs ih dc now n htame
    simp only [tame] at htame
    obtain ⟨hlen, hcmp⟩ := ih dc now (n + 1)
    have hclone : (cloneValue (.arr id xs) false dc now n).1 =
        .arr n (cloneElems xs false dc now (n + 1)).1 := rfl
    rw [hclone]
    exact compareValue_arr n id (cloneElems xs false dc now (n + 1)).1 xs hlen (hcmp htame)
  have hdate : ∀ (id : Nat) (t : Int), CloneCmpV (.date id t) := by
    intro id t dc now n _
    have hclone : (cloneValue (.date id t) false dc now n).1 = .date n t := rfl
    rw [hclone]
    by_cases hoi : objectIs (.date n t) (.date id t) = true
    · simp [compareValue, hoi]
    · have hoi2 : objectIs (.date n t) (.date id t) = false := by simpa using hoi
      simp [compareValue, hoi2, isDateVal]
  have hregex : ∀ (id : Nat) (s f : String) (li : Nat), CloneCmpV (.regex id s f li) := by
    intro id s f li dc now n htame
    simp [tame] at htame
  have hmap : ∀ (id : Nat) (es : MapEntries), TrivM es → CloneCmpV (.mapV id es) := by
    intro id es _ dc now n htame
    simp [tame] at htame
  have hset : ∀ (id : Nat) (ms : Elems), CloneCmpE ms → CloneCmpV (.setV id ms) := by
    intro id ms _ dc now n htame
    simp [tame] at htame
  have hbuf : ∀ (id : Nat) (bs : List Nat), CloneCmpV (.buffer id bs) := by
    intro id bs dc now n htame
    simp [tame] at htame
  have hview : ∀ (id : Nat) (k : ViewKind) (b off len : Nat) (data : List Nat),
      CloneCmpV (.view id k b off len data) := by
    intro id k b off len data dc now n htame
    simp [tame] at htame
  have hfnil : CloneCmpF .nil := by
    intro dc now n
    refine ⟨rfl, rfl, fun _ _ => rfl⟩
  have hfcons : ∀ (k : String) (v : Val) (r : Fields),
      CloneCmpV v → CloneCmpF r → CloneCmpF (.cons k v r) := by
    intro k v r ihv ihr dc now n
    have hunf : (cloneFields (Fields.cons k v r) false dc now n).1 =
        .cons k (cloneValue v false dc now n).1
          (cloneFields r false dc now (cloneValue v false dc now n).2).1 := rfl
    obtain ⟨hkeys, hlen, hok⟩ := ihr dc now (cloneValue v false dc now n).2
    rw [hunf]
    refine ⟨by simp [fieldsKeys, hkeys], by simp [fieldsLength, hlen], ?_⟩
    intro hnd htf
    have hnk : fieldsHasKey r k = false := by
      cases hc : fieldsHasKey r k with
      | false => rfl
      | true => rw [fieldsNodup, hc] at hnd; simp at hnd
    have hndr : fieldsNodup r = true := by
      rw [fieldsNodup] at hnd
      simp only [Bool.and_eq_true] at hnd
      exact hnd.2
    simp only [tameF, Bool.and_eq_true] at htf
    have hlkp : fieldsLookup (Fields.cons k v r) k = some v := by
      simp [fieldsLookup]
    simp only [compareOwnKeys, hlkp]
    have hRk : fieldsHasKey (cloneFields r false dc now (cloneValue v false dc now n).2).1 k
        = false := by
      rw [fieldsHasKey_congr _ r hkeys k]
      exact hnk
    rw [compareOwnKeys_skip _ k v r hRk]
    rw [ihv dc now n htf.1, hok hndr htf.2]
    rfl
  have henil : CloneCmpE .nil := by
    intro dc now n
    exact ⟨rfl, fun _ => rfl⟩
  have hecons : ∀ (v : Val) (r : Elems),
      CloneCmpV v → CloneCmpE r → CloneCmpE (.cons v r) := by
    intro v r ihv ihr dc now n
    have hunf : (cloneElems (Elems.cons v r) false dc now n).1 =
        .cons (cloneValue v false dc now n).1
          (cloneElems r false dc now (cloneValue v false dc now n).2).1 := rfl
    obtain ⟨hlen, hcmp⟩ := ihr dc now (cloneValue v false dc now n).2
    rw [hunf]
    refine ⟨by simp [elemsLength, hlen], ?_⟩
    intro hte
    simp only [tameE, Bool.and_eq_true] at hte
    simp only [compareElems]
    rw [ihv dc now n hte.1, hcmp hte.2]
    rfl
  have hmnil : TrivM .nil := trivial
  have hmcons : ∀ (k v : Val) (r : MapEntries),
      CloneCmpV k → CloneCmpV v → TrivM r → TrivM (.cons k v r) := by
    intro _ _ _ _ _ _; trivial
  exact ⟨fun v => Val.rec hprim hfunc hobj harr hdate hregex hmap hset hbuf hview
      hfnil hfcons henil hecons hmnil hmcons v,
    fun fs => Fields.rec hprim hfunc hobj harr hdate hregex hmap hset hbuf hview
      hfnil hfcons henil hecons hmnil hmcons fs,
    fun xs => Elems.rec hprim hfunc hobj harr hdate hregex hmap hset hbuf hview
      hfnil hfcons henil hecons hmnil hmcons xs,
    fun es => MapEntries.rec hprim hfunc hobj harr hdate hregex hmap hset hbuf hview
      hfnil hfcons henil hecons hmnil hmcons es⟩

/-- A value classified as plain or array is typeof object. -/
theorem isObjectTyped_of_container (v : Val)
    (h : (isPlainObject v || isArrayVal v) = true) : isObjectTyped v = true := by
  cases v <;> simp_all [isPlainObject, isArrayVal, isObjectTyped]

/-- Claim C7 counterexample: cxMapRecord contains the nested Record under
the key n, yet compare of its clone against it returns false, because the
nested map under m is cloned to a fresh reference while the comparison
tests maps by reference. -/
theorem c7_cx :
    fieldsLookup (fieldsOf cxMapRecord) "n" =
      some (.obj 1 .objectProto false false .nil) ∧
    isPlainObject (.obj 1 .objectProto false false .nil) = true ∧
    copy cxMapRecord ⟨false, false⟩ 0 10 =
      .ok (.obj 10 .objectProto false false
        (.cons "n" (.obj 11 .objectProto false false .nil)
          (.cons "m" (.mapV 12 .nil) .nil))) ∧
    Tspo.compare
        (.obj 10 .objectProto false false
          (.cons "n" (.obj 11 .objectProto false false .nil)
            (.cons "m" (.mapV 12 .nil) .nil)))
        cxMapRecord = .ok false :=
  ⟨rfl, rfl, rfl, rfl⟩

/-- Claim C7 as amended: for a Record built only from primitives,
functions, Temporal Values, duplicate-free Records and Ordered Lists, any
nested container is rebuilt under a reference foreign to the source, and
compare of the clone against the source returns true. For Records with
other composite leaves (collections, regexes, buffers, opaque objects) the
comparison can return false, since such leaves are cloned to fresh
references but compared by reference. -/
theorem c7_amended (r nval : Val) (k : String) (n : Nat)
    (htame : tame r = true) (hplain : isPlainObject r = true)
    (hfield : fieldsLookup (fieldsOf r) k = some nval)
    (hcont : (isPlainObject nval || isArrayVal nval) = true)
    (hfresh : ∀ i ∈ idsV r, i < n) :
    ∃ X w m, copy r ⟨false, false⟩ 0 n = .ok X ∧
      fieldsLookup (fieldsOf X) k = some w ∧
      refId w = some m ∧ m ∉ idsV r ∧
      Tspo.compare X r = .ok true := by
  cases r with
  | prim p => simp [isPlainObject] at hplain
  | func i => simp [isPlainObject] at hplain
  | obj id p tag iter fs =>
    simp only [tame, Bool.and_eq_true] at htame
    obtain ⟨⟨⟨⟨hadm, htg⟩, hit⟩, hnd⟩, htf⟩ := htame
    obtain ⟨m, hm, heq⟩ := cloneFields_lookup fs false false 0 (n + 1) k nval hfield
    obtain ⟨hkeys, hlen, hok⟩ := cloneCmp_all.2.1 fs false 0 (n + 1)
    have hnot : m ∉ idsV (.obj id p tag iter fs) := by
      intro hmem
      have := hfresh m hmem
      omega
    have hXplain :
        isPlainObject (clonePlainObject p fs false false 0 n).1 = true := by
      have : (clonePlainObject p fs false false 0 n).1 =
          .obj n (if p == .nullProto then .nullProto else .objectProto) false false
            (cloneFields fs false false 0 (n + 1)).1 := rfl
      rw [this]
      cases p <;> rfl
    refine ⟨(clonePlainObject p fs false false 0 n).1,
      (cloneValue nval false false 0 m).1, m, ?_, ?_, ?_, hnot, ?_⟩
    · simp [copy, hplain, protoOf, fieldsOf]
    · have hfx : fieldsOf (clonePlainObject p fs false false 0 n).1 =
        (cloneFields fs false false 0 (n + 1)).1 := rfl
      rw [hfx, heq]
    · exact refId_cloneValue nval false false 0 m (isObjectTyped_of_container nval hcont)
    · have hcmp : comparePlainObjects
          (cloneFields fs false false 0 (n + 1)).1 fs = true := by
        rw [comparePlainObjects, hok hnd htf, hlen]
        simp
      have hfx : fieldsOf (clonePlainObject p fs false false 0 n).1 =
        (cloneFields fs false false 0 (n + 1)).1 := rfl
      have hstep : Tspo.compare (clonePlainObject p fs false false 0 n).1
          (Val.obj id p tag iter fs) =
          .ok (comparePlainObjects
            (fieldsOf (clonePlainObject p fs false false 0 n).1)
            (fieldsOf (Val.obj id p tag iter fs))) := by
        simp [Tspo.compare, hXplain, hplain]
      rw [hstep, hfx]
      have hfr : fieldsOf (Val.obj id p tag iter fs) = fs := rfl
      rw [hfr, hcmp]
  | arr id xs => simp [isPlainObject] at hplain
  | date id t => simp [isPlainObject] at hplain
  | regex id s f li => simp [isPlainObject] at hplain
  | mapV id es => simp [isPlainObject] at hplain
  | setV id ms => simp [isPlainObject] at hplain
  | buffer id bs => simp [isPlainObject] at hplain
  | view id kk b off len data => simp [isPlainObject] at hplain

/-- Claim C7 witness: the amended clone identity-breaking property
instantiated at a concrete record with one nested empty record. -/
theorem c7_witness :
    ∃ X w m,
      copy (.obj 0 .objectProto false false
          (.cons "n" (.obj 1 .objectProto false false .nil) .nil)) ⟨false, false⟩ 0 5 =
        .ok X ∧
      fieldsLookup (fieldsOf X) "n" = some w ∧
      refId w = some m ∧
      m ∉ idsV (.obj 0 .objectProto false false
        (.cons "n" (.obj 1 .objectProto false false .nil) .nil)) ∧
      Tspo.compare X (.obj 0 .objectProto false false
        (.cons "n" (.obj 1 .objectProto false false .nil) .nil)) = .ok true :=
  c7_amended (.obj 0 .objectProto false false
      (.cons "n" (.obj 1 .objectProto false false .nil) .nil))
    (.obj 1 .objectProto false false .nil) "n" 5 rfl rfl rfl rfl (by decide)

/-- Extending a resolved path by one key resolves to that child. -/
theorem getAtPath_append :
    ∀ (path : List JsKey) (root v : Val) (k : JsKey),
      getAtPath root path = some v →
      getAtPath root (path ++ [k]) = childAt v k := by
  intro path
  induction path with
  | nil =>
    intro root v k h
    have hrv : root = v := by simpa [getAtPath] using h
    subst hrv
    simp only [List.nil_append, getAtPath]
    cases hc : childAt root k with
    | none => rfl
    | some c => rfl
  | cons k1 rest ih =>
    intro root v k h
    simp only [getAtPath] at h
    simp only [List.cons_append, getAtPath]
    cases hc : childAt root k1 with
    | none => rw [hc] at h; cases h
    | some c =>
      rw [hc] at h
      exact ih c v k h

/-- Entries of a deeply duplicate-free object are deeply duplicate-free. -/
theorem entries_nodupDeep :
    ∀ (fs : Fields), nodupDeepF fs = true →
      ∀ kv ∈ fieldsEntries fs, nodupDeep kv.2 = true := by
  intro fs
  induction fs using fieldsRecOn with
  | h0 => intro _ kv hm; simp [fieldsEntries] at hm
  | h1 k v r ih =>
    intro h kv hm
    simp only [nodupDeepF, Bool.and_eq_true] at h
    simp only [fieldsEntries, List.mem_cons] at hm
    rcases hm with rfl | hm
    · exact h.1
    · exact ih h.2 kv hm

/-- Elements of a deeply duplicate-free array are deeply duplicate-free. -/
theorem elemsGet_nodupDeep :
    ∀ (xs : Elems), nodupDeepE xs = true →
      ∀ j v, elemsGet xs j = some v → nodupDeep v = true := by
  intro xs
  induction xs using elemsRecOn with
  | h0 => intro _ j v h; simp [elemsGet] at h
  | h1 w r ih =>
    intro h j v hg
    simp only [nodupDeepE, Bool.and_eq_true] at h
    cases j with
    | zero =>
      have : w = v := by simpa [elemsGet] using hg
      subst this
      exact h.1
    | succ j2 =>
      exact ih h.2 j2 v (by simpa [elemsGet] using hg)

/-- The walker path contract holds on every carrier of the value family:
every event of a walk started at a resolved container names its parent at
its key and carries the key path that resolves from the root to that
parent. -/
theorem iterPath_all :
    (∀ v, IterPathV v) ∧ (∀ fs, IterPathF fs) ∧ (∀ xs, IterPathE xs) ∧ (∀ es, TrivM es) := by
  have hprim : ∀ p, IterPathV (.prim p) := by
    intro p path0 root _ _ e he; simp [iterateHelper] at he
  have hfunc : ∀ i, IterPathV (.func i) := by
    intro i path0 root _ _ e he; simp [iterateHelper] at he
  have hobj : ∀ (id : Nat) (p : Proto) (tag iter : Bool) (fs : Fields),
      IterPathF fs → IterPathV (.obj id p tag iter fs) := by
    intro id p tag iter fs ih path0 root hget hnd e he
    simp only [nodupDeep, Bool.and_eq_true] at hnd
    have hhelp : iterateHelper (.obj id p tag iter fs) path0 =
        iterFields (.obj id p tag iter fs) fs path0 := rfl
    rw [hhelp] at he
    refine ih (.obj id p tag iter fs) path0 root hget ?_ ?_ e he
    · intro kv hm
      have := fieldsEntries_lookup fs hnd.1 kv hm
      simpa [childAt] using this
    · intro kv hm
      exact entries_nodupDeep fs hnd.2 kv hm
  have harr : ∀ (id : Nat) (xs : Elems), IterPathE xs → IterPathV (.arr id xs) := by
    intro id xs ih path0 root hget hnd e he
    simp only [nodupDeep] at hnd
    have hhelp : iterateHelper (.arr id xs) path0 =
        iterElems (.arr id xs) xs 0 path0 := rfl
    rw [hhelp] at he
    refine ih (.arr id xs) 0 path0 root hget ?_ ?_ e he
    · intro j v hj
      simpa [childAt, Nat.zero_add] using hj
    · intro j v hj
      exact elemsGet_nodupDeep xs hnd j v hj
  have hdate : ∀ (id : Nat) (t : Int), IterPathV (.date id t) := by
    intro id t path0 root _ _ e he; simp [iterateHelper] at he
  have hregex : ∀ (id : Nat) (s f : String) (li : Nat), IterPathV (.regex id s f li) := by
    intro id s f li path0 root _ _ e he; simp [iterateHelper] at he
  have hmap : ∀ (id : Nat) (es : MapEntries), TrivM es → IterPathV (.mapV id es) := by
    intro id es _ path0 root _ _ e he; simp [iterateHelper] at he
  have hset : ∀ (id : Nat) (ms : Elems), IterPathE ms → IterPathV (.setV id ms) := by
    intro id ms _ path0 root _ _ e he; simp [iterateHelper] at he
  have hbuf : ∀ (id : Nat) (bs : List Nat), IterPathV (.buffer id bs) := by
    intro id bs path0 root _ _ e he; simp [iterateHelper] at he
  have hview : ∀ (id : Nat) (k : ViewKind) (b off len : Nat) (data : List Nat),
      IterPathV (.view id k b off len data) := by
    intro id k b off len data path0 root _ _ e he; simp [iterateHelper] at he
  have hfnil : IterPathF .nil := by
    intro parent path0 root _ _ _ e he; simp [iterFields] at he
  have hfcons : ∀ (k : String) (v : Val) (r : Fields),
      IterPathV v → IterPathF r → IterPathF (.cons k v r) := by
    intro k v r ihv ihr parent path0 root hget hsub hnested e he
    have hunf : iterFields parent (Fields.cons k v r) path0 =
        ⟨parent, .str k, v, path0⟩ ::
          ((if isPlainObject v || isArrayVal v then
              iterateHelper v (path0 ++ [JsKey.str k]) else []) ++
            iterFields parent r path0) := rfl
    rw [hunf] at he
    simp only [List.mem_cons, List.mem_append] at he
    have hhead : childAt parent (.str k) = some v :=
      hsub (k, v) (by simp [fieldsEntries])
    rcases he with rfl | he | he
    · exact ⟨hhead, hget⟩
    · cases hif : (isPlainObject v || isArrayVal v) with
      | false => rw [hif] at he; simp at he
      | true =>
        rw [hif] at he
        simp only [if_true] at he
        have hget2 : getAtPath root (path0 ++ [JsKey.str k]) = some v := by
          rw [getAtPath_append path0 root parent (.str k) hget]
          exact hhead
        exact ihv (path0 ++ [JsKey.str k]) root hget2
          (hnested (k, v) (by simp [fieldsEntries])) e he
    · refine ihr parent path0 root hget ?_ ?_ e he
      · intro kv hm
        exact hsub kv (by simp [fieldsEntries, hm])
      · intro kv hm
        exact hnested kv (by simp [fieldsEntries, hm])
  have henil : IterPathE .nil := by
    intro parent i path0 root _ _ _ e he; simp [iterElems] at he
  have hecons : ∀ (v : Val) (r : Elems),
      IterPathV v → IterPathE r → IterPathE (.cons v r) := by
    intro v r ihv ihr parent i path0 root hget hsub hnested e he
    have hunf : iterElems parent (Elems.cons v r) i path0 =
        ⟨parent, .idx i, v, path0⟩ ::
          ((if isPlainObject v || isArrayVal v then
              iterateHelper v (path0 ++ [JsKey.idx i]) else []) ++
            iterElems parent r (i + 1) path0) := rfl
    rw [hunf] at he
    simp only [List.mem_cons, List.mem_append] at he
    have hhead : childAt parent (.idx i) = some v := by
      have := hsub 0 v (by simp [elemsGet])
      simpa [Nat.add_zero] using this
    rcases he with rfl | he | he
    · exact ⟨hhead, hget⟩
    · cases hif : (isPlainObject v || isArrayVal v) with
      | false => rw [hif] at he; simp at he
      | true =>
        rw [hif] at he
        simp only [if_true] at he
        have hget2 : getAtPath root (path0 ++ [JsKey.idx i]) = some v := by
          rw [getAtPath_append path0 root parent (.idx i) hget]
          exact hhead
        exact ihv (path0 ++ [JsKey.idx i]) root hget2
          (hnested 0 v (by simp [elemsGet])) e he
    · refine ihr parent (i + 1) path0 root hget ?_ ?_ e he
      · intro j w hj
        have := hsub (j + 1) w (by simpa [elemsGet] using hj)
        have harith : i + (j + 1) = i + 1 + j := by omega
        rwa [harith] at this
      · intro j w hj
        exact hnested (j + 1) w (by simpa [elemsGet] using hj)
  have hmnil : TrivM .nil := trivial
  have hmcons : ∀ (k v : Val) (r : MapEntries),
      IterPathV k → IterPathV v → TrivM r → TrivM (.cons k v r) := by
    intro _ _ _ _ _ _; trivial
  exact ⟨fun v => Val.rec hprim hfunc hobj harr hdate hregex hmap hset hbuf hview
      hfnil hfcons henil hecons hmnil hmcons v,
    fun fs => Fields.rec hprim hfunc hobj harr hdate hregex hmap hset hbuf hview
      hfnil hfcons henil hecons hmnil hmcons fs,
    fun xs => Elems.rec hprim hfunc hobj harr hdate hregex hmap hset hbuf hview
      hfnil hfcons henil hecons hmnil hmcons xs,
    fun es => MapEntries.rec hprim hfunc hobj harr hdate hregex hmap hset hbuf hview
      hfnil hfcons henil hecons hmnil hmcons es⟩

/-- Claim C3: the walk is pre-order depth-first with the stated path
contract. The first part evaluates the walk of the specification record
and yields exactly the five callback invocations in their stated order,
the branch entries firing before their children; the second part states
the path contract for every walked record: each event names its parent
container at its key, and its path is the key sequence that resolves from
the root to that parent. -/
theorem c3 :
    iterate exRoot =
      [⟨exRoot, .str "user", exUser, []⟩,
        ⟨exUser, .str "id", .prim (.num (.intVal 1)), [.str "user"]⟩,
        ⟨exUser, .str "name", .prim (.str "Ada"), [.str "user"]⟩,
        ⟨exRoot, .str "flags", exFlags, []⟩,
        ⟨exFlags, .idx 0, .prim (.str "staff"), [.str "flags"]⟩] ∧
    (∀ (root : Val) (e : VisitEvent), nodupDeep root = true → e ∈ iterate root →
      childAt e.parent e.key = some e.value ∧
        getAtPath root e.path = some e.parent) := by
  constructor
  · rfl
  · intro root e hnd he
    by_cases hp : isPlainObject root = true
    · have hit : iterate root = iterateHelper root [] := by simp [iterate, hp]
      rw [hit] at he
      exact iterPath_all.1 root [] root rfl hnd e he
    · have h2 : isPlainObject root = false := by simpa using hp
      simp [iterate, h2] at he

end Tspo
